import Mathlib

/-!
Verification of the distributional methods of `IndShockConsumerType_extend`
(notebook `IndShockConsumerType_extend-Example.ipynb`): the grid projector
`JumpToGrid`, the transition-matrix builder `CalcTransitionMatrix`, the
stationary-distribution extractor `CalcErgodicDist` and the grid setup
`DefineDistributionGrid`.

The embedding uses exact rational arithmetic (`ℚ`) in place of numpy floats,
lists in place of numpy arrays, and explicit state passing in place of numpy
in-place array mutation.  The numpy accumulation array `probGrid` is embedded
as a function `ℕ → ℕ → ℚ` threaded through the per-sample loop.
-/

namespace BayerLuetticke

/-- Embedding of `np.digitize(v, bins) ` for a monotonically increasing `bins`
(the regime in which the source calls it): the number of bin edges that are
`≤ v`, i.e. `searchsorted(bins, v, side =right)`. -/
def digitize (v : ℚ) (bins : List ℚ) : ℕ :=
  bins.countP (fun b => b ≤ v)

/-- Embedding of the index computation of `JumpToGrid` for one sample value in
one dimension, including the two in-place overrides of the source:

    mIndex = np.digitize(m_vals, grid) - 1
    mIndex[m_vals <= grid[0]]  = -1
    mIndex[m_vals >= grid[-1]] = len(grid) - 1

The overrides are applied in source order, so the second wins when both fire. -/
def gridIndex (grid : List ℚ) (v : ℚ) : ℤ :=
  let raw : ℤ := (digitize v grid : ℤ) - 1
  let flagged : ℤ := if v ≤ grid.getD 0 0 then -1 else raw
  if grid.getD (grid.length - 1) 0 ≤ v then (grid.length : ℤ) - 1 else flagged

/-- The per-dimension split computed inside the sample loop of `JumpToGrid`:
two target grid indices and the interpolation weight placed on each. -/
structure DimWeights where
  lowerIndex : ℕ
  upperIndex : ℕ
  lowerWeight : ℚ
  upperWeight : ℚ
deriving DecidableEq

/-- Embedding of the three-way branch of `JumpToGrid` on `mIndex[i]` (and
identically on `pIndex[i]`).  In the `mIndex[i] == len(grid)-1` branch the
source sets both indices to the Python index `-1`, which addresses the last
row `len(grid) - 1`; the embedding writes that resolved index directly. -/
def dimWeights (grid : List ℚ) (v : ℚ) : DimWeights :=
  let idx := gridIndex grid v
  if idx = -1 then
    ⟨0, 0, 1, 0⟩
  else if idx = (grid.length : ℤ) - 1 then
    ⟨grid.length - 1, grid.length - 1, 1, 0⟩
  else
    let k := idx.toNat
    let lw := (grid.getD (k + 1) 0 - v) / (grid.getD (k + 1) 0 - grid.getD k 0)
    ⟨k, k + 1, lw, 1 - lw⟩

/-- Total weight a per-dimension split places on grid index `a`; the two
summands collapse onto the same index in the boundary branches, exactly as the
two accumulations of the source do. -/
def dimMass (w : DimWeights) (a : ℕ) : ℚ :=
  (if a = w.lowerIndex then w.lowerWeight else 0) +
    (if a = w.upperIndex then w.upperWeight else 0)

/-- One in-place accumulation `probGrid[a][b] += x` of the source, on the
functional embedding of the `probGrid` array. -/
def addAt (g : ℕ → ℕ → ℚ) (a b : ℕ) (x : ℚ) : ℕ → ℕ → ℚ :=
  fun p q => if p = a ∧ q = b then g p q + x else g p q

/-- One iteration of the sample loop of `JumpToGrid`: the four accumulations

    probGrid[ml][pl] += probs[i]*mlowerWeight*plowerWeight
    probGrid[ml][pu] += probs[i]*mlowerWeight*pupperWeight
    probGrid[mu][pl] += probs[i]*mupperWeight*plowerWeight
    probGrid[mu][pu] += probs[i]*mupperWeight*pupperWeight -/
def jumpStep (mGrid pGrid : List ℚ) (g : ℕ → ℕ → ℚ) (mv pv prob : ℚ) :
    ℕ → ℕ → ℚ :=
  let mw := dimWeights mGrid mv
  let pw := dimWeights pGrid pv
  let g1 := addAt g mw.lowerIndex pw.lowerIndex (prob * mw.lowerWeight * pw.lowerWeight)
  let g2 := addAt g1 mw.lowerIndex pw.upperIndex (prob * mw.lowerWeight * pw.upperWeight)
  let g3 := addAt g2 mw.upperIndex pw.lowerIndex (prob * mw.upperWeight * pw.lowerWeight)
  addAt g3 mw.upperIndex pw.upperIndex (prob * mw.upperWeight * pw.upperWeight)

/-- Embedding of `JumpToGrid(m_vals, perm_vals, probs)`: start from the zero
array `probGrid = np.zeros((len(mGrid), len(pGrid)))`, run the sample loop
`for i in range(len(m_vals))`, and return `probGrid.flatten()` (row-major:
`mGrid` index major, `pGrid` index minor). -/
def JumpToGrid (mGrid pGrid mVals pVals probs : List ℚ) : List ℚ :=
  let final := (List.range mVals.length).foldl
    (fun g i => jumpStep mGrid pGrid g (mVals.getD i 0) (pVals.getD i 0) (probs.getD i 0))
    (fun _ _ => 0)
  (List.range mGrid.length).flatMap
    (fun a => (List.range pGrid.length).map (fun b => final a b))

/-- Closed form of one cell of the accumulated `probGrid`: the sum over all
samples of the product of the sample's probability and its two per-dimension
weights on that cell.  Proven below to equal the loop of `JumpToGrid`. -/
def jumpCell (mGrid pGrid mVals pVals probs : List ℚ) (a b : ℕ) : ℚ :=
  ∑ i ∈ Finset.range mVals.length,
    probs.getD i 0 * dimMass (dimWeights mGrid (mVals.getD i 0)) a *
      dimMass (dimWeights pGrid (pVals.getD i 0)) b

/-- Embedding of `CalcTransitionMatrix`.  The matrix is represented by its
columns, listed in the order of the source's linear column index
`i*len(pGrid)+j`; column `(i,j)` of the source's `TranMatrix` is entry
`i*len(pGrid)+j` of this list.  The shock distribution is passed as the three
lists `self.IncShkDstn[0].pmf`, `.X[1]` (transitory) and `.X[0]` (permanent),
and the policy `self.solution[0].cFunc` and scalars as explicit arguments. -/
def CalcTransitionMatrix (mGrid pGrid : List ℚ) (cFunc : ℚ → ℚ) (Rfree : ℚ)
    (ShockProbs TranShocks PermShocks : List ℚ) (LivPrb : ℚ) :
    List (List ℚ) :=
  let aNext := mGrid.map (fun m => m - cFunc m)
  let bNext := aNext.map (fun a => Rfree * a)
  let NewBornDist :=
    JumpToGrid mGrid pGrid TranShocks (TranShocks.map (fun _ => 1)) ShockProbs
  (List.range mGrid.length).flatMap (fun i =>
    (List.range pGrid.length).map (fun j =>
      let mNext := List.zipWith (fun ψ ξ => bNext.getD i 0 / ψ + ξ) PermShocks TranShocks
      let pNext := PermShocks.map (fun ψ => pGrid.getD j 0 * ψ)
      List.zipWith (fun x y => LivPrb * x + (1 - LivPrb) * y)
        (JumpToGrid mGrid pGrid mNext pNext ShockProbs) NewBornDist))

/-- Real parts of the complex vector returned by the sparse eigen-solver,
complex numbers embedded as (real, imaginary) pairs of rationals. -/
def realPart (v : List (ℚ × ℚ)) : List ℚ :=
  v.map Prod.fst

/-- Embedding of the body of `CalcErgodicDist` downstream of the external
eigen-solver call `sp.linalg.eigs(TranMatrix, k=1, which =LM)`, whose output
vector is the argument: `ergodic_distr.real / np.sum(ergodic_distr.real)`.
The source performs no check of any kind on the solver output: no raise
statement exists in `CalcErgodicDist`, and numpy float division emits
non-finite values rather than raising. -/
def CalcErgodicDist (eigvec : List (ℚ × ℚ)) : List ℚ :=
  let re := realPart eigvec
  re.map (fun x => x / re.sum)

/-- Matrix-vector product for the column-list matrix representation:
entry `r` of the product is `∑ k, cols[k][r] * x[k]`. -/
def matVec (cols : List (List ℚ)) (x : List ℚ) : List ℚ :=
  (List.range (cols.getD 0 []).length).map
    (fun r => ∑ k ∈ Finset.range cols.length, (cols.getD k []).getD r 0 * x.getD k 0)

/-- Marginal first moment of a flattened cell distribution along the
market-resources axis: the grid value of each cell's `m`-coordinate weighted
by the cell's probability mass. -/
def marginalMeanM (mGrid pGrid dist : List ℚ) : ℚ :=
  ∑ a ∈ Finset.range mGrid.length, ∑ b ∈ Finset.range pGrid.length,
    dist.getD (a * pGrid.length + b) 0 * mGrid.getD a 0

/-- Marginal first moment of a flattened cell distribution along the
permanent-income axis. -/
def marginalMeanP (mGrid pGrid dist : List ℚ) : ℚ :=
  ∑ a ∈ Finset.range mGrid.length, ∑ b ∈ Finset.range pGrid.length,
    dist.getD (a * pGrid.length + b) 0 * pGrid.getD b 0

/-- Probability-weighted mean of a list of sample values (the true first
moment of the input sample when the probabilities sum to 1). -/
def weightedMean (vals probs : List ℚ) : ℚ :=
  ∑ i ∈ Finset.range vals.length, probs.getD i 0 * vals.getD i 0

/-- Possible outcomes of a call to `DefineDistributionGrid`.  The source can
print a warning and return (setting nothing), raise numpy's ValueError about
the ambiguous truth value of a multi-element comparison array (recording which
grid attribute had already been assigned), or assign both grid attributes. -/
inductive DistGridOutcome where
  | printedWarning : DistGridOutcome
  | valueErrorRaised : Option (List ℚ) → DistGridOutcome
  | gridsSet : List ℚ → List ℚ → DistGridOutcome
deriving DecidableEq

/-- Truthiness of the Python expression `arg == None` when `arg` is either
`None` or a numpy array: `None == None` is `True`; for an array the comparison
broadcasts elementwise to a boolean array (all `False`, as floats never equal
`None`), whose truth value is `False` for length ≤ 1 and raises
`ValueError: The truth value of an array with more than one element is
ambiguous` for length ≥ 2. -/
def arrayEqNoneTruthy (arg : Option (List ℚ)) : Except Unit Bool :=
  match arg with
  | none => .ok true
  | some xs => if xs.length ≤ 1 then .ok false else .error ()

/-- Embedding of `DefineDistributionGrid(Dist_mGrid, Dist_pGrid)`.
`aXtraGrid` is the model's own asset grid `self.aXtraGrid`; `defaultPGrid`
stands for the permanent-income grid the source builds from
`make_grid_exp_mult`/`np.exp` (external HARK/numpy collaborators producing
irrational values), passed in as an opaque input since no claim depends on its
entries.  The source checks `self.cycles != 0` first and only prints; in the
`else` branch it evaluates `Dist_mGrid == None` (assigning `self.Dist_mGrid`),
then `Dist_pGrid == None` (assigning `self.Dist_pGrid`). -/
def DefineDistributionGrid (aXtraGrid defaultPGrid : List ℚ) (cycles : ℤ)
    (Dist_mGrid Dist_pGrid : Option (List ℚ)) : DistGridOutcome :=
  if cycles ≠ 0 then
    .printedWarning
  else
    match arrayEqNoneTruthy Dist_mGrid with
    | .error _ => .valueErrorRaised none
    | .ok mIsNone =>
      let mG := if mIsNone then aXtraGrid else Dist_mGrid.getD []
      match arrayEqNoneTruthy Dist_pGrid with
      | .error _ => .valueErrorRaised (some mG)
      | .ok pIsNone =>
        let pG := if pIsNone then defaultPGrid else Dist_pGrid.getD []
        .gridsSet mG pG

/-! ### List infrastructure -/

lemma getD_mem_of_lt {α : Type*} [Inhabited α] {l : List α} {i : ℕ} (d : α)
    (h : i < l.length) : l.getD i d ∈ l := by
  rw [List.getD_eq_getElem _ _ h]
  exact List.getElem_mem h

lemma sum_getD_range (l : List ℚ) :
    ∑ i ∈ Finset.range l.length, l.getD i 0 = l.sum := by
  induction l with
  | nil => simp
  | cons x t ih =>
    rw [List.length_cons, Finset.sum_range_succ']
    simp only [List.getD_cons_succ, List.getD_cons_zero, List.sum_cons]
    rw [ih]; ring

lemma sum_range_map (f : ℕ → ℚ) (n : ℕ) :
    ((List.range n).map f).sum = ∑ i ∈ Finset.range n, f i := by
  induction n with
  | zero => simp
  | succ m ih =>
    rw [List.range_succ, List.map_append, List.sum_append, Finset.sum_range_succ, ih]
    simp

lemma sum_flatMap_range (f : ℕ → ℕ → ℚ) (m n : ℕ) :
    ((List.range m).flatMap (fun a => (List.range n).map (f a))).sum
      = ∑ a ∈ Finset.range m, ∑ b ∈ Finset.range n, f a b := by
  induction m with
  | zero => simp
  | succ k ih =>
    rw [List.range_succ, List.flatMap_append, List.sum_append, Finset.sum_range_succ, ih]
    simp [sum_range_map]

lemma length_flatMap_range {β : Type*} (f : ℕ → ℕ → β) (m n : ℕ) :
    ((List.range m).flatMap (fun a => (List.range n).map (f a))).length = m * n := by
  induction m with
  | zero => simp
  | succ k ih =>
    rw [List.range_succ, List.flatMap_append, List.length_append, ih]
    simp [Nat.succ_mul]

lemma getD_flatMap_aux {α : Type*} (f : ℕ → ℕ → α) (d : α) (L : List ℕ)
    (n j : ℕ) (hj : j < n) :
    ∀ i : ℕ, i < L.length →
      (L.flatMap (fun a => (List.range n).map (f a))).getD (i * n + j) d
        = f (L.getD i 0) j := by
  induction L with
  | nil => intro i hi; simp at hi
  | cons a t ih =>
    intro i hi
    cases i with
    | zero =>
      rw [List.flatMap_cons, Nat.zero_mul, Nat.zero_add, List.getD_eq_getElem?_getD,
        List.getElem?_append_left (by simpa using hj), List.getElem?_map,
        List.getElem?_range hj]
      simp
    | succ i' =>
      have hn : ((List.range n).map (f a)).length = n := by simp
      have hlen : ((List.range n).map (f a)).length ≤ (i' + 1) * n + j := by
        rw [hn]
        calc n ≤ (i' + 1) * n := Nat.le_mul_of_pos_left n (Nat.succ_pos i')
        _ ≤ (i' + 1) * n + j := Nat.le_add_right _ _
      rw [List.flatMap_cons, List.getD_eq_getElem?_getD,
        List.getElem?_append_right hlen, ← List.getD_eq_getElem?_getD]
      have harith : (i' + 1) * n + j - ((List.range n).map (f a)).length = i' * n + j := by
        rw [hn, Nat.succ_mul]; omega
      rw [harith, ih i' (by simpa using hi)]
      simp

lemma getD_flatMap_range {α : Type*} (f : ℕ → ℕ → α) (d : α) (m n : ℕ) {i j : ℕ}
    (hi : i < m) (hj : j < n) :
    ((List.range m).flatMap (fun a => (List.range n).map (f a))).getD (i * n + j) d
      = f i j := by
  have h := getD_flatMap_aux f d (List.range m) n j hj i (by simpa using hi)
  have hr : (List.range m).getD i 0 = i := by
    rw [List.getD_eq_getElem _ _ (by simpa using hi)]
    exact List.getElem_range i _
  rwa [hr] at h

lemma mem_flatMap_range_map {β : Type*} {x : β} {f : ℕ → ℕ → β} {m n : ℕ}
    (hx : x ∈ (List.range m).flatMap (fun a => (List.range n).map (f a))) :
    ∃ a b, a < m ∧ b < n ∧ x = f a b := by
  simp only [List.mem_flatMap, List.mem_map, List.mem_range] at hx
  obtain ⟨a, ha, b, hb, hfb⟩ := hx
  exact ⟨a, b, ha, hb, hfb.symm⟩

lemma sum_zipWith_blend (s : ℚ) (xs ys : List ℚ) (h : xs.length = ys.length) :
    (List.zipWith (fun x y => s * x + (1 - s) * y) xs ys).sum
      = s * xs.sum + (1 - s) * ys.sum := by
  induction xs generalizing ys with
  | nil =>
    cases ys with
    | nil => simp
    | cons y u => simp at h
  | cons x t ih =>
    cases ys with
    | nil => simp at h
    | cons y u =>
      simp only [List.zipWith_cons_cons, List.sum_cons]
      rw [ih u (by simpa using h)]
      ring

lemma mem_zipWith {α β γ : Type*} {f : α → β → γ} {xs : List α} {ys : List β} {z : γ}
    (hz : z ∈ List.zipWith f xs ys) : ∃ x ∈ xs, ∃ y ∈ ys, z = f x y := by
  induction xs generalizing ys with
  | nil => simp at hz
  | cons x t ih =>
    cases ys with
    | nil => simp at hz
    | cons y u =>
      simp only [List.zipWith_cons_cons, List.mem_cons] at hz
      rcases hz with rfl | hz
      · exact ⟨x, by simp, y, by simp, rfl⟩
      · obtain ⟨x', hx', y', hy', rfl⟩ := ih hz
        exact ⟨x', by simp [hx'], y', by simp [hy'], rfl⟩

lemma getD_map_of_lt (f : ℚ → ℚ) (l : List ℚ) {i : ℕ} (h : i < l.length) :
    (l.map f).getD i 0 = f (l.getD i 0) := by
  rw [List.getD_eq_getElem _ _ (by simpa using h), List.getD_eq_getElem _ _ h,
    List.getElem_map]

lemma getD_map_div (l : List ℚ) (s : ℚ) (i : ℕ) :
    (l.map (fun x => x / s)).getD i 0 = l.getD i 0 / s := by
  rcases lt_or_le i l.length with h | h
  · exact getD_map_of_lt _ l h
  · rw [List.getD_eq_getElem?_getD, List.getD_eq_getElem?_getD,
      List.getElem?_eq_none (by simpa using h), List.getElem?_eq_none h]
    simp

/-! ### Sorted grids and the digitize bracketing -/

lemma sorted_getD_lt {l : List ℚ} (hs : List.Sorted (· < ·) l) {i j : ℕ}
    (hij : i < j) (hj : j < l.length) : l.getD i 0 < l.getD j 0 := by
  rw [List.getD_eq_getElem _ _ (hij.trans hj), List.getD_eq_getElem _ _ hj]
  have h := hs.rel_get_of_lt (a := ⟨i, hij.trans hj⟩) (b := ⟨j, hj⟩)
    (by simpa using hij)
  simpa using h

/-- On a strictly increasing list, `digitize` counts an initial run: position
`i` holds a value `≤ v` exactly when `i` lies below the count. -/
lemma digitize_iff {l : List ℚ} (hs : List.Sorted (· < ·) l) (v : ℚ) :
    ∀ i : ℕ, i < l.length → (l.getD i 0 ≤ v ↔ i < digitize v l) := by
  induction l with
  | nil => intro i hi; simp at hi
  | cons x t ih =>
    rw [List.sorted_cons] at hs
    intro i hi
    by_cases hx : x ≤ v
    · have hd : digitize v (x :: t) = digitize v t + 1 := by
        simp [digitize, List.countP_cons, hx]
      cases i with
      | zero => simpa [hd] using hx
      | succ i' =>
        rw [hd, List.getD_cons_succ]
        simpa [Nat.succ_lt_succ_iff] using ih hs.2 i' (by simpa using hi)
    · have h0 : digitize v (x :: t) = 0 := by
        rw [digitize, List.countP_eq_zero]
        intro a ha
        simp only [List.mem_cons] at ha
        simp only [decide_eq_true_eq]
        rcases ha with rfl | ha
        · exact hx
        · have hxa := hs.1 a ha
          push_neg at hx
          intro hav
          linarith
      rw [h0]
      cases i with
      | zero => simpa using hx
      | succ i' =>
        simp only [List.getD_cons_succ]
        constructor
        · intro hle
          exfalso
          have hmem := getD_mem_of_lt (0 : ℚ) (l := t) (i := i') (by simpa using hi)
          have hxa := hs.1 _ hmem
          push_neg at hx
          linarith
        · intro hlt
          exact absurd hlt (by omega)

lemma sorted_getD_le {l : List ℚ} (hs : List.Sorted (· < ·) l) {i j : ℕ}
    (hij : i ≤ j) (hj : j < l.length) : l.getD i 0 ≤ l.getD j 0 := by
  rcases eq_or_lt_of_le hij with rfl | h
  · exact le_refl _
  · exact (sorted_getD_lt hs h hj).le

/-! ### Structure of the per-dimension split -/

lemma dimWeights_above {grid : List ℚ} {v : ℚ} (hne : grid ≠ [])
    (hv : grid.getD (grid.length - 1) 0 ≤ v) :
    dimWeights grid v = ⟨grid.length - 1, grid.length - 1, 1, 0⟩ := by
  have hlen : 1 ≤ grid.length := List.length_pos.mpr hne
  have hd : ¬ ((grid.length : ℤ) - 1 = -1) := by omega
  simp only [dimWeights, gridIndex]
  rw [if_pos hv, if_neg hd, if_pos rfl]

lemma dimWeights_below {grid : List ℚ} {v : ℚ}
    (hv : v ≤ grid.getD 0 0) (hv2 : ¬ grid.getD (grid.length - 1) 0 ≤ v) :
    dimWeights grid v = ⟨0, 0, 1, 0⟩ := by
  simp only [dimWeights, gridIndex]
  rw [if_neg hv2, if_pos hv, if_pos rfl]

lemma dimWeights_interior {grid : List ℚ} {v : ℚ} (hs : List.Sorted (· < ·) grid)
    (hlo : grid.getD 0 0 < v) (hhi : v < grid.getD (grid.length - 1) 0) :
    ∃ k : ℕ, k + 1 < grid.length ∧ grid.getD k 0 ≤ v ∧ v < grid.getD (k + 1) 0 ∧
      dimWeights grid v =
        ⟨k, k + 1, (grid.getD (k + 1) 0 - v) / (grid.getD (k + 1) 0 - grid.getD k 0),
          1 - (grid.getD (k + 1) 0 - v) / (grid.getD (k + 1) 0 - grid.getD k 0)⟩ := by
  have hlen2 : 2 ≤ grid.length := by
    rcases Nat.lt_or_ge grid.length 2 with h | h
    · exfalso
      have h0 : grid.length - 1 = 0 := by omega
      rw [h0] at hhi
      linarith
    · exact h
  have hiff := digitize_iff hs v
  have h0lt : 0 < digitize v grid := by
    have := (hiff 0 (by omega)).mp hlo.le
    omega
  have hdle : digitize v grid ≤ grid.length - 1 := by
    by_contra hc
    push_neg at hc
    have := (hiff (grid.length - 1) (by omega)).mpr hc
    linarith
  have hov1 : ¬ v ≤ grid.getD 0 0 := not_le.mpr hlo
  have hov2 : ¬ grid.getD (grid.length - 1) 0 ≤ v := not_le.mpr hhi
  have hidx : gridIndex grid v = (digitize v grid : ℤ) - 1 := by
    simp only [gridIndex]
    rw [if_neg hov2, if_neg hov1]
  refine ⟨digitize v grid - 1, by omega, ?_, ?_, ?_⟩
  · exact (hiff (digitize v grid - 1) (by omega)).mpr (by omega)
  · by_contra hc
    push_neg at hc
    have := (hiff (digitize v grid - 1 + 1) (by omega)).mp hc
    omega
  · have hb1 : ¬ ((digitize v grid : ℤ) - 1 = -1) := by omega
    have hb2 : ¬ ((digitize v grid : ℤ) - 1 = (grid.length : ℤ) - 1) := by omega
    have htn : ((digitize v grid : ℤ) - 1).toNat = digitize v grid - 1 := by omega
    simp only [dimWeights]
    rw [hidx, if_neg hb1, if_neg hb2, htn]

/-- Every evaluation of `dimWeights` is one of the three source branches:
collapse to the minimum point, collapse to the maximum point, or an interior
bracketing split. -/
lemma dimWeights_cases {grid : List ℚ} (hs : List.Sorted (· < ·) grid)
    (hne : grid ≠ []) (v : ℚ) :
    (v ≤ grid.getD 0 0 ∧ dimWeights grid v = ⟨0, 0, 1, 0⟩) ∨
    (grid.getD (grid.length - 1) 0 ≤ v ∧
      dimWeights grid v = ⟨grid.length - 1, grid.length - 1, 1, 0⟩) ∨
    (∃ k : ℕ, k + 1 < grid.length ∧ grid.getD k 0 ≤ v ∧ v < grid.getD (k + 1) 0 ∧
      dimWeights grid v =
        ⟨k, k + 1, (grid.getD (k + 1) 0 - v) / (grid.getD (k + 1) 0 - grid.getD k 0),
          1 - (grid.getD (k + 1) 0 - v) / (grid.getD (k + 1) 0 - grid.getD k 0)⟩) := by
  by_cases h1 : grid.getD (grid.length - 1) 0 ≤ v
  · exact Or.inr (Or.inl ⟨h1, dimWeights_above hne h1⟩)
  · by_cases h2 : v ≤ grid.getD 0 0
    · exact Or.inl ⟨h2, dimWeights_below h2 h1⟩
    · exact Or.inr (Or.inr (dimWeights_interior hs (not_le.mp h2) (not_le.mp h1)))

lemma dimWeights_indexLt {grid : List ℚ} {v : ℚ} (hs : List.Sorted (· < ·) grid)
    (hne : grid ≠ []) :
    (dimWeights grid v).lowerIndex < grid.length ∧
      (dimWeights grid v).upperIndex < grid.length := by
  have hpos : 0 < grid.length := List.length_pos.mpr hne
  rcases dimWeights_cases hs hne v with ⟨_, h⟩ | ⟨_, h⟩ | ⟨k, hk, _, _, h⟩ <;>
    rw [h] <;> dsimp only <;> omega

lemma dimWeights_weight_nonneg {grid : List ℚ} {v : ℚ} (hs : List.Sorted (· < ·) grid)
    (hne : grid ≠ []) :
    0 ≤ (dimWeights grid v).lowerWeight ∧ 0 ≤ (dimWeights grid v).upperWeight := by
  rcases dimWeights_cases hs hne v with ⟨_, h⟩ | ⟨_, h⟩ | ⟨k, hk, hkle, hklt, h⟩ <;>
    rw [h] <;> dsimp only
  · norm_num
  · norm_num
  · have hden : 0 < grid.getD (k + 1) 0 - grid.getD k 0 := by linarith
    have hle1 : (grid.getD (k + 1) 0 - v) / (grid.getD (k + 1) 0 - grid.getD k 0) ≤ 1 :=
      (div_le_one hden).mpr (by linarith)
    constructor
    · apply div_nonneg <;> linarith
    · linarith

lemma dimWeights_weight_sum {grid : List ℚ} {v : ℚ} (hs : List.Sorted (· < ·) grid)
    (hne : grid ≠ []) :
    (dimWeights grid v).lowerWeight + (dimWeights grid v).upperWeight = 1 := by
  rcases dimWeights_cases hs hne v with ⟨_, h⟩ | ⟨_, h⟩ | ⟨k, hk, hkle, hklt, h⟩ <;>
    rw [h] <;> dsimp only <;> ring

lemma dimMass_nonneg {grid : List ℚ} {v : ℚ} (hs : List.Sorted (· < ·) grid)
    (hne : grid ≠ []) (a : ℕ) : 0 ≤ dimMass (dimWeights grid v) a := by
  obtain ⟨h1, h2⟩ := dimWeights_weight_nonneg (v := v) hs hne
  unfold dimMass
  split_ifs <;> simp_all <;> linarith

/-- The two per-dimension weights always add to 1 across the whole grid. -/
lemma sum_dimMass {grid : List ℚ} {v : ℚ} (hs : List.Sorted (· < ·) grid)
    (hne : grid ≠ []) :
    ∑ a ∈ Finset.range grid.length, dimMass (dimWeights grid v) a = 1 := by
  obtain ⟨hl, hu⟩ := dimWeights_indexLt (v := v) hs hne
  have hsum := dimWeights_weight_sum (v := v) hs hne
  unfold dimMass
  rw [Finset.sum_add_distrib, Finset.sum_ite_eq', Finset.sum_ite_eq']
  rw [if_pos (Finset.mem_range.mpr hl), if_pos (Finset.mem_range.mpr hu)]
  exact hsum

/-- First-moment identity for the per-dimension split: for a value inside the
grid bounds the weighted grid points average back to the value itself. -/
lemma sum_dimMass_mul {grid : List ℚ} {v : ℚ} (hs : List.Sorted (· < ·) grid)
    (hne : grid ≠ []) (hlo : grid.getD 0 0 ≤ v)
    (hhi : v ≤ grid.getD (grid.length - 1) 0) :
    ∑ a ∈ Finset.range grid.length,
      dimMass (dimWeights grid v) a * grid.getD a 0 = v := by
  have hpos : 0 < grid.length := List.length_pos.mpr hne
  rcases dimWeights_cases hs hne v with ⟨hc, h⟩ | ⟨hc, h⟩ | ⟨k, hk, hkle, hklt, h⟩ <;>
    rw [h] <;> unfold dimMass <;> dsimp only <;>
    simp only [add_mul, ite_mul, zero_mul] <;>
    rw [Finset.sum_add_distrib, Finset.sum_ite_eq', Finset.sum_ite_eq']
  · rw [if_pos (Finset.mem_range.mpr hpos), if_pos (Finset.mem_range.mpr hpos)]
    have hv0 : v = grid.getD 0 0 := le_antisymm hc hlo
    rw [hv0]; ring
  · rw [if_pos (Finset.mem_range.mpr (by omega)), if_pos (Finset.mem_range.mpr (by omega))]
    have hv1 : v = grid.getD (grid.length - 1) 0 := le_antisymm hhi hc
    rw [hv1]; ring
  · rw [if_pos (Finset.mem_range.mpr (by omega)), if_pos (Finset.mem_range.mpr (by omega))]
    have hden : grid.getD (k + 1) 0 - grid.getD k 0 ≠ 0 := by
      have : grid.getD k 0 < grid.getD (k + 1) 0 := lt_of_le_of_lt hkle hklt
      linarith
    set gk := grid.getD k 0 with hgk
    set gk1 := grid.getD (k + 1) 0 with hgk1
    field_simp
    ring

/-- A sample exactly on grid point `t` puts its whole per-dimension weight on
index `t`. -/
lemma dimMass_onGrid {grid : List ℚ} (hs : List.Sorted (· < ·) grid)
    (hne : grid ≠ []) {t : ℕ} (ht : t < grid.length) (a : ℕ) :
    dimMass (dimWeights grid (grid.getD t 0)) a = if a = t then 1 else 0 := by
  by_cases hup : grid.getD (grid.length - 1) 0 ≤ grid.getD t 0
  · have htop : t = grid.length - 1 := by
      by_contra hc
      have hlt : t < grid.length - 1 := by omega
      have := sorted_getD_lt hs hlt (by omega)
      linarith
    subst htop
    rw [dimWeights_above hne hup]
    unfold dimMass
    dsimp only
    split_ifs <;> ring
  · by_cases hlo : grid.getD t 0 ≤ grid.getD 0 0
    · have hbot : t = 0 := by
        by_contra hc
        have := sorted_getD_lt hs (Nat.pos_of_ne_zero hc) ht
        linarith
      subst hbot
      rw [dimWeights_below hlo hup]
      unfold dimMass
      dsimp only
      split_ifs <;> ring
    · obtain ⟨k, hk, hkle, hklt, h⟩ :=
        dimWeights_interior hs (not_le.mp hlo) (not_le.mp hup)
      have hkt : k = t := by
        by_contra hc
        rcases Nat.lt_or_ge k t with hlt | hge
        · have hk1t : k + 1 ≤ t := hlt
          have := sorted_getD_le hs hk1t ht
          linarith
        · have htk : t < k := by omega
          have := sorted_getD_lt hs htk (by omega)
          linarith
      subst hkt
      have hdden : grid.getD (k + 1) 0 - grid.getD k 0 ≠ 0 := by
        have := sorted_getD_lt hs (Nat.lt_succ_self k) hk
        linarith
      have hw1 : (grid.getD (k + 1) 0 - grid.getD k 0) /
          (grid.getD (k + 1) 0 - grid.getD k 0) = 1 := div_self hdden
      rw [h]
      unfold dimMass
      dsimp only
      rw [hw1]
      split_ifs with h1 h2 h2 <;> [omega; ring; ring; ring]

/-- A sample exactly at the midpoint of two adjacent grid points splits its
per-dimension weight half-and-half between them (any strictly increasing grid;
uniform spacing is a special case). -/
lemma dimMass_midpoint {grid : List ℚ} (hs : List.Sorted (· < ·) grid)
    {k : ℕ} (hk : k + 1 < grid.length) (a : ℕ) :
    dimMass (dimWeights grid ((grid.getD k 0 + grid.getD (k + 1) 0) / 2)) a
      = if a = k ∨ a = k + 1 then 1 / 2 else 0 := by
  have hkk : grid.getD k 0 < grid.getD (k + 1) 0 :=
    sorted_getD_lt hs (Nat.lt_succ_self k) hk
  have hmid1 : grid.getD k 0 < (grid.getD k 0 + grid.getD (k + 1) 0) / 2 := by linarith
  have hmid2 : (grid.getD k 0 + grid.getD (k + 1) 0) / 2 < grid.getD (k + 1) 0 := by
    linarith
  have hlo : grid.getD 0 0 < (grid.getD k 0 + grid.getD (k + 1) 0) / 2 := by
    have : grid.getD 0 0 ≤ grid.getD k 0 := sorted_getD_le hs (Nat.zero_le k) (by omega)
    linarith
  have hhi : (grid.getD k 0 + grid.getD (k + 1) 0) / 2 < grid.getD (grid.length - 1) 0 := by
    have : grid.getD (k + 1) 0 ≤ grid.getD (grid.length - 1) 0 :=
      sorted_getD_le hs (by omega) (by omega)
    linarith
  obtain ⟨k', hk', hkle, hklt, h⟩ := dimWeights_interior hs hlo hhi
  have hkeq : k' = k := by
    by_contra hc
    rcases Nat.lt_or_ge k' k with hlt | hge
    · have := sorted_getD_le hs (show k' + 1 ≤ k from hlt) (by omega)
      linarith
    · have := sorted_getD_le hs (show k + 1 ≤ k' from by omega) (by omega)
      linarith
  rw [hkeq] at h
  have hden : grid.getD (k + 1) 0 - grid.getD k 0 ≠ 0 := by linarith
  have hw : (grid.getD (k + 1) 0 - (grid.getD k 0 + grid.getD (k + 1) 0) / 2) /
      (grid.getD (k + 1) 0 - grid.getD k 0) = 1 / 2 := by
    rw [div_eq_iff hden]
    ring
  rw [h]
  unfold dimMass
  dsimp only
  rw [hw]
  by_cases h1 : a = k <;> by_cases h2 : a = k + 1
  · exfalso; omega
  · rw [if_pos h1, if_neg h2, if_pos (Or.inl h1)]; ring
  · rw [if_neg h1, if_pos h2, if_pos (Or.inr h2)]; ring
  · rw [if_neg h1, if_neg h2, if_neg (by tauto)]; ring

/-! ### The sample loop of JumpToGrid -/

lemma addAt_apply (g : ℕ → ℕ → ℚ) (a' b' : ℕ) (x : ℚ) (a b : ℕ) :
    addAt g a' b' x a b = g a b + (if a = a' ∧ b = b' then x else 0) := by
  unfold addAt
  split_ifs <;> simp

lemma ite_and_mul3 (P Q : Prop) [Decidable P] [Decidable Q] (c x y : ℚ) :
    (if P ∧ Q then c * x * y else 0)
      = c * (if P then x else 0) * (if Q then y else 0) := by
  by_cases hP : P <;> by_cases hQ : Q <;> simp [hP, hQ]

/-- The four accumulations of one loop iteration add exactly
`prob * dimMass_m(a) * dimMass_p(b)` to cell `(a, b)`. -/
lemma jumpStep_apply (mG pG : List ℚ) (g : ℕ → ℕ → ℚ) (mv pv prob : ℚ) (a b : ℕ) :
    jumpStep mG pG g mv pv prob a b
      = g a b + prob * dimMass (dimWeights mG mv) a * dimMass (dimWeights pG pv) b := by
  simp only [jumpStep, addAt_apply, dimMass, ite_and_mul3]
  ring

lemma jumpFold_apply (mG pG mVals pVals probs : List ℚ) (n : ℕ) (g0 : ℕ → ℕ → ℚ)
    (a b : ℕ) :
    ((List.range n).foldl
      (fun g i => jumpStep mG pG g (mVals.getD i 0) (pVals.getD i 0) (probs.getD i 0))
      g0) a b
      = g0 a b + ∑ i ∈ Finset.range n,
          probs.getD i 0 * dimMass (dimWeights mG (mVals.getD i 0)) a *
            dimMass (dimWeights pG (pVals.getD i 0)) b := by
  induction n with
  | zero => simp
  | succ m ih =>
    rw [List.range_succ, List.foldl_append, List.foldl_cons, List.foldl_nil,
      jumpStep_apply, ih, Finset.sum_range_succ]
    ring

/-- The imperative loop of `JumpToGrid` computes exactly the per-cell sums of
`jumpCell`, flattened row-major. -/
lemma JumpToGrid_eq (mG pG mVals pVals probs : List ℚ) :
    JumpToGrid mG pG mVals pVals probs
      = (List.range mG.length).flatMap (fun a => (List.range pG.length).map
          (fun b => jumpCell mG pG mVals pVals probs a b)) := by
  simp only [JumpToGrid, jumpCell, jumpFold_apply, zero_add]

lemma JumpToGrid_getD (mG pG mVals pVals probs : List ℚ) {a b : ℕ}
    (ha : a < mG.length) (hb : b < pG.length) :
    (JumpToGrid mG pG mVals pVals probs).getD (a * pG.length + b) 0
      = jumpCell mG pG mVals pVals probs a b := by
  rw [JumpToGrid_eq]
  exact getD_flatMap_range _ _ _ _ ha hb

lemma JumpToGrid_length (mG pG mVals pVals probs : List ℚ) :
    (JumpToGrid mG pG mVals pVals probs).length = mG.length * pG.length := by
  rw [JumpToGrid_eq]
  exact length_flatMap_range _ _ _

lemma jumpCell_nonneg {mG pG : List ℚ} (hmS : List.Sorted (· < ·) mG)
    (hpS : List.Sorted (· < ·) pG) (hmne : mG ≠ []) (hpne : pG ≠ [])
    {probs : List ℚ} (hp : ∀ q ∈ probs, 0 ≤ q) (mVals pVals : List ℚ) (a b : ℕ) :
    0 ≤ jumpCell mG pG mVals pVals probs a b := by
  apply Finset.sum_nonneg
  intro i _
  have hq : 0 ≤ probs.getD i 0 := by
    rcases lt_or_le i probs.length with h | h
    · exact hp _ (getD_mem_of_lt 0 h)
    · rw [List.getD_eq_getElem?_getD, List.getElem?_eq_none h]
      exact le_refl 0
  exact mul_nonneg (mul_nonneg hq (dimMass_nonneg hmS hmne a))
    (dimMass_nonneg hpS hpne b)

lemma sum_swap_inner (f : ℕ → ℕ → ℕ → ℚ) (A B I : Finset ℕ) :
    (∑ a ∈ A, ∑ b ∈ B, ∑ i ∈ I, f i a b) = ∑ i ∈ I, ∑ a ∈ A, ∑ b ∈ B, f i a b := by
  rw [Finset.sum_congr rfl (fun a _ => Finset.sum_comm), Finset.sum_comm]

/-- Mass conservation: the flattened output of `JumpToGrid` sums to the sum of
the input probabilities. -/
lemma JumpToGrid_sum {mG pG : List ℚ} (hmS : List.Sorted (· < ·) mG)
    (hpS : List.Sorted (· < ·) pG) (hmne : mG ≠ []) (hpne : pG ≠ [])
    {mVals pVals probs : List ℚ} (hlen : probs.length = mVals.length) :
    (JumpToGrid mG pG mVals pVals probs).sum = probs.sum := by
  rw [JumpToGrid_eq, sum_flatMap_range]
  unfold jumpCell
  rw [sum_swap_inner]
  have hcell : ∀ i ∈ Finset.range mVals.length,
      (∑ a ∈ Finset.range mG.length, ∑ b ∈ Finset.range pG.length,
        probs.getD i 0 * dimMass (dimWeights mG (mVals.getD i 0)) a *
          dimMass (dimWeights pG (pVals.getD i 0)) b) = probs.getD i 0 := by
    intro i _
    have h1 : ∀ a : ℕ, (∑ b ∈ Finset.range pG.length,
        probs.getD i 0 * dimMass (dimWeights mG (mVals.getD i 0)) a *
          dimMass (dimWeights pG (pVals.getD i 0)) b)
        = probs.getD i 0 * dimMass (dimWeights mG (mVals.getD i 0)) a := by
      intro a
      rw [← Finset.mul_sum, sum_dimMass hpS hpne, mul_one]
    rw [Finset.sum_congr rfl (fun a _ => h1 a), ← Finset.mul_sum,
      sum_dimMass hmS hmne, mul_one]
  rw [Finset.sum_congr rfl hcell, ← hlen]
  exact sum_getD_range probs

lemma JumpToGrid_entry_nonneg {mG pG : List ℚ} (hmS : List.Sorted (· < ·) mG)
    (hpS : List.Sorted (· < ·) pG) (hmne : mG ≠ []) (hpne : pG ≠ [])
    {probs : List ℚ} (hp : ∀ q ∈ probs, 0 ≤ q) (mVals pVals : List ℚ) :
    ∀ x ∈ JumpToGrid mG pG mVals pVals probs, 0 ≤ x := by
  intro x hx
  rw [JumpToGrid_eq] at hx
  obtain ⟨a, b, _, _, rfl⟩ := mem_flatMap_range_map hx
  exact jumpCell_nonneg hmS hpS hmne hpne hp mVals pVals a b

lemma sum_map_div (l : List ℚ) (s : ℚ) :
    (l.map (fun x => x / s)).sum = l.sum / s := by
  induction l with
  | nil => simp
  | cons x t ih =>
    simp only [List.map_cons, List.sum_cons, ih]
    ring

lemma matVec_map_div (cols : List (List ℚ)) (x : List ℚ) (s : ℚ) :
    matVec cols (x.map (fun t => t / s)) = (matVec cols x).map (fun t => t / s) := by
  unfold matVec
  rw [List.map_map]
  congr 1
  funext r
  simp only [Function.comp]
  rw [Finset.sum_div]
  apply Finset.sum_congr rfl
  intro k _
  rw [getD_map_div]
  ring

/-! ### The claims -/

/-- C2: for equal-length sample-value and probability sequences, the vector
returned by `JumpToGrid` sums over all cells to the total input probability
mass. -/
theorem JumpToGrid_preserves_total_mass (mGrid pGrid mVals pVals probs : List ℚ)
    (hmS : List.Sorted (· < ·) mGrid) (hpS : List.Sorted (· < ·) pGrid)
    (hmne : mGrid ≠ []) (hpne : pGrid ≠ [])
    (hlen1 : pVals.length = mVals.length) (hlen2 : probs.length = mVals.length) :
    (JumpToGrid mGrid pGrid mVals pVals probs).sum = probs.sum :=
  JumpToGrid_sum hmS hpS hmne hpne hlen2

theorem JumpToGrid_preserves_total_mass_witness :
    (JumpToGrid [0, 1, 2] [1, 2] [1/3, 5] [1, 3/2] [1/2, 1/4]).sum
      = ([1/2, 1/4] : List ℚ).sum :=
  JumpToGrid_preserves_total_mass [0, 1, 2] [1, 2] [1/3, 5] [1, 3/2] [1/2, 1/4]
    (by decide) (by decide) (by decide) (by decide) (by decide) (by decide)

/-- C5: a sample value at or below the grid minimum gets that dimension's
entire weight (1.0) on the minimum grid point, and a value at or above the
grid maximum gets the entire weight on the maximum grid point; the split
never addresses an index outside the grid. -/
theorem JumpToGrid_boundary_clamp (grid : List ℚ) (v : ℚ)
    (hs : List.Sorted (· < ·) grid) (h2 : 2 ≤ grid.length) :
    (v ≤ grid.getD 0 0 → dimWeights grid v = ⟨0, 0, 1, 0⟩) ∧
    (grid.getD (grid.length - 1) 0 ≤ v →
      dimWeights grid v = ⟨grid.length - 1, grid.length - 1, 1, 0⟩) := by
  constructor
  · intro hv
    have hlt : grid.getD 0 0 < grid.getD (grid.length - 1) 0 :=
      sorted_getD_lt hs (by omega) (by omega)
    exact dimWeights_below hv (not_le.mpr (lt_of_le_of_lt hv hlt))
  · intro hv
    exact dimWeights_above (List.length_pos.mp (by omega)) hv

theorem JumpToGrid_boundary_clamp_witness :
    dimWeights [0, 1, 2] (-5) = ⟨0, 0, 1, 0⟩ ∧
      dimWeights [0, 1, 2] 7 = ⟨2, 2, 1, 0⟩ := by
  have h := JumpToGrid_boundary_clamp [0, 1, 2] (-5) (by decide) (by decide)
  have h2 := JumpToGrid_boundary_clamp [0, 1, 2] 7 (by decide) (by decide)
  exact ⟨h.1 (by norm_num), by simpa using h2.2 (by norm_num)⟩

/-- C6: a single unit-probability sample lying exactly on a joint grid point
projects to a one-hot distribution at that point, and a sample at the exact
midpoint of two adjacent market-resource grid points (with on-grid permanent
income) splits its mass 50/50 between the two adjacent cells. -/
theorem JumpToGrid_exact_degenerate (mGrid pGrid : List ℚ)
    (hmS : List.Sorted (· < ·) mGrid) (hpS : List.Sorted (· < ·) pGrid)
    (a0 b0 k : ℕ) (ha0 : a0 < mGrid.length) (hb0 : b0 < pGrid.length)
    (hk : k + 1 < mGrid.length) :
    (∀ a b, a < mGrid.length → b < pGrid.length →
      (JumpToGrid mGrid pGrid [mGrid.getD a0 0] [pGrid.getD b0 0] [1]).getD
          (a * pGrid.length + b) 0
        = if a = a0 ∧ b = b0 then 1 else 0) ∧
    (∀ a b, a < mGrid.length → b < pGrid.length →
      (JumpToGrid mGrid pGrid [(mGrid.getD k 0 + mGrid.getD (k + 1) 0) / 2]
          [pGrid.getD b0 0] [1]).getD (a * pGrid.length + b) 0
        = if (a = k ∨ a = k + 1) ∧ b = b0 then 1 / 2 else 0) := by
  have hmne : mGrid ≠ [] := List.length_pos.mp (by omega)
  have hpne : pGrid ≠ [] := List.length_pos.mp (by omega)
  constructor
  · intro a b ha hb
    rw [JumpToGrid_getD _ _ _ _ _ ha hb]
    unfold jumpCell
    simp only [List.length_singleton, Finset.sum_range_one, List.getD_cons_zero]
    rw [dimMass_onGrid hmS hmne ha0, dimMass_onGrid hpS hpne hb0]
    by_cases h1 : a = a0 <;> by_cases h2 : b = b0 <;> simp [h1, h2]
  · intro a b ha hb
    rw [JumpToGrid_getD _ _ _ _ _ ha hb]
    unfold jumpCell
    simp only [List.length_singleton, Finset.sum_range_one, List.getD_cons_zero]
    rw [dimMass_midpoint hmS hk, dimMass_onGrid hpS hpne hb0]
    by_cases h1 : a = k ∨ a = k + 1 <;> by_cases h2 : b = b0 <;> simp [h1, h2]

theorem JumpToGrid_exact_degenerate_witness :
    (JumpToGrid [0, 1, 2] [1, 2] [1] [1] [1]).getD 2 0 = 1 ∧
      (JumpToGrid [0, 1, 2] [1, 2] [3/2] [1] [1]).getD 2 0 = 1/2 ∧
      (JumpToGrid [0, 1, 2] [1, 2] [3/2] [1] [1]).getD 4 0 = 1/2 := by
  have h := JumpToGrid_exact_degenerate [0, 1, 2] [1, 2] (by decide) (by decide)
    1 0 1 (by norm_num) (by norm_num) (by norm_num)
  refine ⟨?_, ?_, ?_⟩
  · have h1 := h.1 1 0 (by norm_num) (by norm_num)
    norm_num at h1
    exact h1
  · have h2 := h.2 1 0 (by norm_num) (by norm_num)
    norm_num at h2
    exact h2
  · have h3 := h.2 2 0 (by norm_num) (by norm_num)
    norm_num at h3
    exact h3

/-- C4: for samples lying within the grid bounds in both dimensions, the
marginal first moment of the projected distribution in each dimension equals
the probability-weighted mean of the input sample values in that dimension. -/
theorem JumpToGrid_preserves_marginal_means (mGrid pGrid mVals pVals probs : List ℚ)
    (hmS : List.Sorted (· < ·) mGrid) (hpS : List.Sorted (· < ·) pGrid)
    (hmne : mGrid ≠ []) (hpne : pGrid ≠ [])
    (hlenp : pVals.length = mVals.length) (hlenq : probs.length = mVals.length)
    (hsum : probs.sum = 1)
    (hmIn : ∀ x ∈ mVals, mGrid.getD 0 0 ≤ x ∧ x ≤ mGrid.getD (mGrid.length - 1) 0)
    (hpIn : ∀ x ∈ pVals, pGrid.getD 0 0 ≤ x ∧ x ≤ pGrid.getD (pGrid.length - 1) 0) :
    marginalMeanM mGrid pGrid (JumpToGrid mGrid pGrid mVals pVals probs)
        = weightedMean mVals probs ∧
      marginalMeanP mGrid pGrid (JumpToGrid mGrid pGrid mVals pVals probs)
        = weightedMean pVals probs := by
  constructor
  · unfold marginalMeanM
    have hstep1 : ∀ a ∈ Finset.range mGrid.length,
        (∑ b ∈ Finset.range pGrid.length,
          (JumpToGrid mGrid pGrid mVals pVals probs).getD (a * pGrid.length + b) 0 *
            mGrid.getD a 0)
        = ∑ b ∈ Finset.range pGrid.length,
            jumpCell mGrid pGrid mVals pVals probs a b * mGrid.getD a 0 := by
      intro a ha
      apply Finset.sum_congr rfl
      intro b hb
      rw [JumpToGrid_getD _ _ _ _ _ (Finset.mem_range.mp ha) (Finset.mem_range.mp hb)]
    rw [Finset.sum_congr rfl hstep1]
    unfold jumpCell
    simp only [Finset.sum_mul]
    rw [sum_swap_inner]
    have hcell : ∀ i ∈ Finset.range mVals.length,
        (∑ a ∈ Finset.range mGrid.length, ∑ b ∈ Finset.range pGrid.length,
          probs.getD i 0 * dimMass (dimWeights mGrid (mVals.getD i 0)) a *
            dimMass (dimWeights pGrid (pVals.getD i 0)) b * mGrid.getD a 0)
        = probs.getD i 0 * mVals.getD i 0 := by
      intro i hi
      have hmv := hmIn _ (getD_mem_of_lt 0 (Finset.mem_range.mp hi))
      have hb1 : ∀ a : ℕ, (∑ b ∈ Finset.range pGrid.length,
          probs.getD i 0 * dimMass (dimWeights mGrid (mVals.getD i 0)) a *
            dimMass (dimWeights pGrid (pVals.getD i 0)) b * mGrid.getD a 0)
          = probs.getD i 0 *
              (dimMass (dimWeights mGrid (mVals.getD i 0)) a * mGrid.getD a 0) := by
        intro a
        have hterm : ∀ b : ℕ, probs.getD i 0 *
            dimMass (dimWeights mGrid (mVals.getD i 0)) a *
            dimMass (dimWeights pGrid (pVals.getD i 0)) b * mGrid.getD a 0
            = (probs.getD i 0 * (dimMass (dimWeights mGrid (mVals.getD i 0)) a *
                mGrid.getD a 0)) * dimMass (dimWeights pGrid (pVals.getD i 0)) b := by
          intro b; ring
        rw [Finset.sum_congr rfl (fun b _ => hterm b), ← Finset.mul_sum,
          sum_dimMass hpS hpne, mul_one]
      rw [Finset.sum_congr rfl (fun a _ => hb1 a), ← Finset.mul_sum,
        sum_dimMass_mul hmS hmne hmv.1 hmv.2]
    rw [Finset.sum_congr rfl hcell]
    unfold weightedMean
    rfl
  · unfold marginalMeanP
    have hstep1 : ∀ a ∈ Finset.range mGrid.length,
        (∑ b ∈ Finset.range pGrid.length,
          (JumpToGrid mGrid pGrid mVals pVals probs).getD (a * pGrid.length + b) 0 *
            pGrid.getD b 0)
        = ∑ b ∈ Finset.range pGrid.length,
            jumpCell mGrid pGrid mVals pVals probs a b * pGrid.getD b 0 := by
      intro a ha
      apply Finset.sum_congr rfl
      intro b hb
      rw [JumpToGrid_getD _ _ _ _ _ (Finset.mem_range.mp ha) (Finset.mem_range.mp hb)]
    rw [Finset.sum_congr rfl hstep1]
    unfold jumpCell
    simp only [Finset.sum_mul]
    rw [sum_swap_inner]
    have hcell : ∀ i ∈ Finset.range mVals.length,
        (∑ a ∈ Finset.range mGrid.length, ∑ b ∈ Finset.range pGrid.length,
          probs.getD i 0 * dimMass (dimWeights mGrid (mVals.getD i 0)) a *
            dimMass (dimWeights pGrid (pVals.getD i 0)) b * pGrid.getD b 0)
        = probs.getD i 0 * pVals.getD i 0 := by
      intro i hi
      have hiv : i < pVals.length := by
        rw [hlenp]; exact Finset.mem_range.mp hi
      have hpv := hpIn _ (getD_mem_of_lt 0 hiv)
      have hb1 : ∀ a : ℕ, (∑ b ∈ Finset.range pGrid.length,
          probs.getD i 0 * dimMass (dimWeights mGrid (mVals.getD i 0)) a *
            dimMass (dimWeights pGrid (pVals.getD i 0)) b * pGrid.getD b 0)
          = (probs.getD i 0 * pVals.getD i 0) *
              dimMass (dimWeights mGrid (mVals.getD i 0)) a := by
        intro a
        have hterm : ∀ b : ℕ, probs.getD i 0 *
            dimMass (dimWeights mGrid (mVals.getD i 0)) a *
            dimMass (dimWeights pGrid (pVals.getD i 0)) b * pGrid.getD b 0
            = (probs.getD i 0 * dimMass (dimWeights mGrid (mVals.getD i 0)) a) *
                (dimMass (dimWeights pGrid (pVals.getD i 0)) b * pGrid.getD b 0) := by
          intro b; ring
        rw [Finset.sum_congr rfl (fun b _ => hterm b), ← Finset.mul_sum,
          sum_dimMass_mul hpS hpne hpv.1 hpv.2]
        ring
      rw [Finset.sum_congr rfl (fun a _ => hb1 a), ← Finset.mul_sum,
        sum_dimMass hmS hmne, mul_one]
    rw [Finset.sum_congr rfl hcell]
    unfold weightedMean
    rw [hlenp]

theorem JumpToGrid_preserves_marginal_means_witness :
    marginalMeanM [0, 1, 2] [1, 2] (JumpToGrid [0, 1, 2] [1, 2] [1/2, 2] [1, 3/2] [1/2, 1/2])
        = weightedMean [1/2, 2] [1/2, 1/2] ∧
      marginalMeanP [0, 1, 2] [1, 2] (JumpToGrid [0, 1, 2] [1, 2] [1/2, 2] [1, 3/2] [1/2, 1/2])
        = weightedMean [1, 3/2] [1/2, 1/2] :=
  JumpToGrid_preserves_marginal_means [0, 1, 2] [1, 2] [1/2, 2] [1, 3/2] [1/2, 1/2]
    (by decide) (by decide) (by decide) (by decide) (by decide) (by decide)
    (by norm_num) (by norm_num) (by norm_num)

lemma CalcTransitionMatrix_length (mGrid pGrid : List ℚ) (cFunc : ℚ → ℚ)
    (Rfree : ℚ) (ShockProbs TranShocks PermShocks : List ℚ) (LivPrb : ℚ) :
    (CalcTransitionMatrix mGrid pGrid cFunc Rfree ShockProbs TranShocks PermShocks
      LivPrb).length = mGrid.length * pGrid.length := by
  simp only [CalcTransitionMatrix]
  exact length_flatMap_range _ _ _

/-- C3: the column of `CalcTransitionMatrix` at linear index
`i*len(pGrid)+j` is `LivPrb` times the projection of the shock-by-shock
successors `m' = R*(m_i - cFunc(m_i))/ψ_k + ξ_k`, `p' = pGrid[j]*ψ_k` plus
`1 - LivPrb` times the newborn distribution, itself the projection of the
transitory shocks against unit permanent income. -/
theorem CalcTransitionMatrix_column_formula (mGrid pGrid : List ℚ) (cFunc : ℚ → ℚ)
    (Rfree LivPrb : ℚ) (ShockProbs TranShocks PermShocks : List ℚ)
    {i j : ℕ} (hi : i < mGrid.length) (hj : j < pGrid.length) :
    (CalcTransitionMatrix mGrid pGrid cFunc Rfree ShockProbs TranShocks PermShocks
        LivPrb).getD (i * pGrid.length + j) []
      = List.zipWith (fun x y => LivPrb * x + (1 - LivPrb) * y)
          (JumpToGrid mGrid pGrid
            (List.zipWith (fun ψ ξ =>
                Rfree * (mGrid.getD i 0 - cFunc (mGrid.getD i 0)) / ψ + ξ)
              PermShocks TranShocks)
            (PermShocks.map (fun ψ => pGrid.getD j 0 * ψ)) ShockProbs)
          (JumpToGrid mGrid pGrid TranShocks (TranShocks.map (fun _ => 1))
            ShockProbs) := by
  have hb : ((mGrid.map (fun m => m - cFunc m)).map (fun q => Rfree * q)).getD i 0
      = Rfree * (mGrid.getD i 0 - cFunc (mGrid.getD i 0)) := by
    rw [getD_map_of_lt _ _ (by simpa using hi), getD_map_of_lt _ _ hi]
  simp only [CalcTransitionMatrix]
  rw [getD_flatMap_range _ _ _ _ hi hj]
  simp only [hb]

theorem CalcTransitionMatrix_column_formula_witness :
    (CalcTransitionMatrix [0, 1] [1, 2] id 1 [1/2, 1/2] [0, 2] [1, 1]
        (1/2)).getD 3 []
      = List.zipWith (fun x y => (1/2 : ℚ) * x + (1 - 1/2) * y)
          (JumpToGrid [0, 1] [1, 2]
            (List.zipWith (fun ψ ξ =>
                1 * (List.getD [0, 1] 1 0 - id (List.getD [0, 1] 1 0)) / ψ + ξ)
              [1, 1] [0, 2])
            (List.map (fun ψ => List.getD [1, 2] 1 0 * ψ) [1, 1]) [1/2, 1/2])
          (JumpToGrid [0, 1] [1, 2] [0, 2] (List.map (fun _ => 1) [0, 2])
            [1/2, 1/2]) := by
  have h := CalcTransitionMatrix_column_formula [0, 1] [1, 2] id 1 (1/2)
    [1/2, 1/2] [0, 2] [1, 1] (i := 1) (j := 1) (by norm_num) (by norm_num)
  simpa using h

/-- C1: under the data-model invariants (strictly increasing nonempty grids,
nonnegative shock probabilities summing to 1, survival probability in
`[0,1]`), every column of the transition matrix is a probability
distribution: entries in `[0,1]` and column sum exactly 1. -/
theorem CalcTransitionMatrix_columns_stochastic (mGrid pGrid : List ℚ)
    (cFunc : ℚ → ℚ) (Rfree LivPrb : ℚ) (ShockProbs TranShocks PermShocks : List ℚ)
    (hmS : List.Sorted (· < ·) mGrid) (hpS : List.Sorted (· < ·) pGrid)
    (hmne : mGrid ≠ []) (hpne : pGrid ≠ [])
    (hprob : ∀ q ∈ ShockProbs, 0 ≤ q) (hsum : ShockProbs.sum = 1)
    (hT : TranShocks.length = ShockProbs.length)
    (hP : PermShocks.length = ShockProbs.length)
    (hL0 : 0 ≤ LivPrb) (hL1 : LivPrb ≤ 1) :
    ∀ col ∈ CalcTransitionMatrix mGrid pGrid cFunc Rfree ShockProbs TranShocks
        PermShocks LivPrb,
      col.sum = 1 ∧ ∀ x ∈ col, 0 ≤ x ∧ x ≤ 1 := by
  intro col hcol
  simp only [CalcTransitionMatrix] at hcol
  obtain ⟨i, j, hi, hj, hceq⟩ := mem_flatMap_range_map hcol
  subst hceq
  have hsum1 : (JumpToGrid mGrid pGrid
      (List.zipWith (fun ψ ξ =>
        ((mGrid.map (fun m => m - cFunc m)).map (fun q => Rfree * q)).getD i 0 / ψ + ξ)
        PermShocks TranShocks)
      (PermShocks.map (fun ψ => pGrid.getD j 0 * ψ)) ShockProbs).sum = 1 := by
    rw [JumpToGrid_sum hmS hpS hmne hpne (by simp [List.length_zipWith, hT, hP])]
    exact hsum
  have hsum2 : (JumpToGrid mGrid pGrid TranShocks (TranShocks.map (fun _ => 1))
      ShockProbs).sum = 1 := by
    rw [JumpToGrid_sum hmS hpS hmne hpne (by rw [hT])]
    exact hsum
  constructor
  · rw [sum_zipWith_blend _ _ _ (by rw [JumpToGrid_length, JumpToGrid_length])]
    rw [hsum1, hsum2]
    ring
  · intro x hx
    obtain ⟨u, hu, w, hw, rfl⟩ := mem_zipWith hx
    have hu0 : 0 ≤ u := JumpToGrid_entry_nonneg hmS hpS hmne hpne hprob _ _ u hu
    have hw0 : 0 ≤ w := JumpToGrid_entry_nonneg hmS hpS hmne hpne hprob _ _ w hw
    have hu1 : u ≤ 1 := by
      have := List.single_le_sum
        (JumpToGrid_entry_nonneg hmS hpS hmne hpne hprob _ _) u hu
      rwa [hsum1] at this
    have hw1 : w ≤ 1 := by
      have := List.single_le_sum
        (JumpToGrid_entry_nonneg hmS hpS hmne hpne hprob _ _) w hw
      rwa [hsum2] at this
    have hL1' : (0 : ℚ) ≤ 1 - LivPrb := by linarith
    constructor
    · have g1 : 0 ≤ LivPrb * u := mul_nonneg hL0 hu0
      have g2 : 0 ≤ (1 - LivPrb) * w := mul_nonneg hL1' hw0
      linarith
    · have g1 : LivPrb * u ≤ LivPrb * 1 := mul_le_mul_of_nonneg_left hu1 hL0
      have g2 : (1 - LivPrb) * w ≤ (1 - LivPrb) * 1 := mul_le_mul_of_nonneg_left hw1 hL1'
      linarith

theorem CalcTransitionMatrix_columns_stochastic_witness :
    ((CalcTransitionMatrix [0, 1] [1, 2] id 1 [1/2, 1/2] [0, 2] [1, 1]
        (1/2)).getD 0 []).sum = 1 := by
  have h := CalcTransitionMatrix_columns_stochastic [0, 1] [1, 2] id 1 (1/2)
    [1/2, 1/2] [0, 2] [1, 1] (by decide) (by decide) (by decide) (by decide)
    (by norm_num) (by norm_num) (by decide) (by decide) (by norm_num) (by norm_num)
  exact (h _ (getD_mem_of_lt []
    (by rw [CalcTransitionMatrix_length]; norm_num))).1

/-- C7: `CalcErgodicDist` returns the real part of the solver's eigenvector
normalized by its sum; whenever that real part has nonzero sum and is a fixed
point of the transition matrix (the eigen-solver's contract for the dominant
eigenvalue 1 of a column-stochastic matrix), the returned vector sums to 1 and
is itself a fixed point. -/
theorem CalcErgodicDist_fixed_point (cols : List (List ℚ)) (v : List (ℚ × ℚ))
    (hsum : (realPart v).sum ≠ 0)
    (hfix : matVec cols (realPart v) = realPart v) :
    CalcErgodicDist v = (realPart v).map (fun x => x / (realPart v).sum) ∧
      (CalcErgodicDist v).sum = 1 ∧
      matVec cols (CalcErgodicDist v) = CalcErgodicDist v := by
  refine ⟨rfl, ?_, ?_⟩
  · simp only [CalcErgodicDist]
    rw [sum_map_div, div_self hsum]
  · simp only [CalcErgodicDist]
    rw [matVec_map_div, hfix]

theorem CalcErgodicDist_fixed_point_witness :
    (CalcErgodicDist [((1 : ℚ), (0 : ℚ))]).sum = 1 ∧
      matVec [[1]] (CalcErgodicDist [((1 : ℚ), (0 : ℚ))])
        = CalcErgodicDist [((1 : ℚ), (0 : ℚ))] := by
  have h := CalcErgodicDist_fixed_point [[1]] [((1 : ℚ), (0 : ℚ))]
    (by norm_num [realPart]) (by norm_num [matVec, realPart, List.range_succ])
  exact ⟨h.2.1, h.2.2⟩

/-- C8 counterexample: on the sign-indefinite eigenvector `(3, -1)` (real,
nonzero sum) the source's `CalcErgodicDist` returns the vector `[3/2, -1/2]`
— which has a negative entry and is not a valid probability vector — instead
of failing: the function body
`ergodic_distr.real / np.sum(ergodic_distr.real)` contains no validity check
and no raise statement, so no `ConvergenceError` is ever produced. -/
theorem CalcErgodicDist_returns_invalid_vector :
    CalcErgodicDist [(3, 0), (-1, 0)] = [3/2, -1/2] ∧ ((-1 : ℚ)/2 < 0) := by
  constructor
  · norm_num [CalcErgodicDist, realPart]
  · norm_num

/-- C8 amended: `CalcErgodicDist` performs no convergence or validity check:
for every eigen-solver output whose real part has nonzero sum it
unconditionally returns the real part normalized by its sum — a vector
summing to 1 even when it contains negative entries (sign-indefinite
mixtures) or the discarded imaginary part was large — and it never raises. -/
theorem CalcErgodicDist_never_fails (v : List (ℚ × ℚ))
    (hsum : (realPart v).sum ≠ 0) :
    CalcErgodicDist v = (realPart v).map (fun x => x / (realPart v).sum) ∧
      (CalcErgodicDist v).sum = 1 := by
  refine ⟨rfl, ?_⟩
  simp only [CalcErgodicDist]
  rw [sum_map_div, div_self hsum]

theorem CalcErgodicDist_never_fails_witness :
    ((realPart [((3 : ℚ), (0 : ℚ)), (-1, 0)]).sum ≠ 0) ∧
      (CalcErgodicDist [((3 : ℚ), (0 : ℚ)), (-1, 0)]).sum = 1 :=
  ⟨by norm_num [realPart],
    (CalcErgodicDist_never_fails [(3, 0), (-1, 0)] (by norm_num [realPart])).2⟩

/-- C9 counterexample: called with `cycles = 1` (a non-stationary model), the
source prints its warning string and returns normally; it raises no exception
of any kind (there is no raise statement in `DefineDistributionGrid`), so no
`ConfigurationError` is produced. -/
theorem DefineDistributionGrid_cycles_counterexample :
    DefineDistributionGrid [0] [1] 1 none none
      = DistGridOutcome.printedWarning := by
  decide

/-- C9 amended: for every non-stationary configuration (`cycles ≠ 0`),
`DefineDistributionGrid` prints a warning message and returns without raising
any exception and without assigning either grid attribute. -/
theorem DefineDistributionGrid_nonstationary_warns (aXtraGrid defaultPGrid : List ℚ)
    (cycles : ℤ) (hc : cycles ≠ 0) (dm dp : Option (List ℚ)) :
    DefineDistributionGrid aXtraGrid defaultPGrid cycles dm dp
      = DistGridOutcome.printedWarning := by
  unfold DefineDistributionGrid
  rw [if_pos hc]

theorem DefineDistributionGrid_nonstationary_warns_witness :
    DefineDistributionGrid [0, 5] [1] 3 (some [1, 2]) none
      = DistGridOutcome.printedWarning :=
  DefineDistributionGrid_nonstationary_warns [0, 5] [1] 3 (by norm_num)
    (some [1, 2]) none

/-- C10: passing a multi-element array (length ≥ 2) as the explicit
`Dist_mGrid` argument makes `Dist_mGrid == None` an elementwise boolean array
whose truth value is ambiguous, so the call raises ValueError before adopting
the supplied grid; passing it as `Dist_pGrid` raises after `Dist_mGrid` has
already been set to the default `aXtraGrid`, again without adopting the
supplied grid. -/
theorem DefineDistributionGrid_array_arg_raises (aXtraGrid defaultPGrid : List ℚ)
    (xs : List ℚ) (h2 : 2 ≤ xs.length) (dp : Option (List ℚ)) :
    DefineDistributionGrid aXtraGrid defaultPGrid 0 (some xs) dp
        = DistGridOutcome.valueErrorRaised none ∧
      DefineDistributionGrid aXtraGrid defaultPGrid 0 none (some xs)
        = DistGridOutcome.valueErrorRaised (some aXtraGrid) := by
  have hxs : arrayEqNoneTruthy (some xs) = .error () := by
    simp only [arrayEqNoneTruthy]
    rw [if_neg (by omega)]
  constructor
  · unfold DefineDistributionGrid
    rw [if_neg (by norm_num), hxs]
  · unfold DefineDistributionGrid
    rw [if_neg (by norm_num)]
    simp only [arrayEqNoneTruthy]
    rw [if_neg (by omega)]
    rfl

theorem DefineDistributionGrid_array_arg_raises_witness :
    DefineDistributionGrid [5] [1] 0 (some [1, 2]) none
        = DistGridOutcome.valueErrorRaised none ∧
      DefineDistributionGrid [5] [1] 0 none (some [1, 2])
        = DistGridOutcome.valueErrorRaised (some [5]) :=
  DefineDistributionGrid_array_arg_raises [5] [1] [1, 2] (by norm_num) none

end BayerLuetticke
